import Mathlib

/-!
Verification of the Sanskrit RAG system's retrieval pipeline
(document loader, vector store, answer synthesis, orchestrator, logger).

The Python sources are shallowly embedded as follows:

- Python strings are modelled as List Char; str.strip(), str.split("\n\n"),
  str.split("\n"), str.split() and "sep".join(...) are modelled by pyStrip,
  splitNl2, splitNl, pyWords and joinSep below, each faithful to CPython
  semantics (in particular "".split(sep) yields [""], never []).
- Python floats are modelled as rationals (Rat); round(x, 3) is modelled by
  pyRound3 using round-half-to-even, as in CPython.
- Fallible Python code (code that may raise) returns Except PyExc; a raised
  exception is the error case, try/except is a match on the Except value.
- Third-party collaborators are modelled by their documented behaviour:
  the sentence-transformers encoder is an arbitrary function parameter
  (embed : List Char -> Vec); faiss.IndexFlatL2.search is exact k-nearest
  neighbour by squared Euclidean distance, ascending, padding missing slots
  with label -1 and FLT_MAX distance when k exceeds the number of stored
  vectors; the seq2seq generation pipeline is a function parameter that may
  fail (gen : List Char -> Except PyExc (List Char)).
- The filesystem is passed in explicitly: a data directory is an optional
  listing of (filename, optional file content) pairs, where a missing
  content marks a file whose read raises; the embedding cache file is an
  optional vector list; wall-clock time is an explicit parameter.
-/

/-- Whitespace as recognised by Python's str.strip / str.split. -/
def isPySpace (c : Char) : Bool :=
  c = ' ' || c = '\t' || c = '\n' || c = '\r' || c = '\x0b' || c = '\x0c'

/-- Drop leading Python whitespace (the left half of str.strip). -/
def stripLeft : List Char → List Char
  | [] => []
  | c :: rest => if isPySpace c then stripLeft rest else c :: rest

/-- Drop trailing Python whitespace (the right half of str.strip). -/
def stripRight (l : List Char) : List Char :=
  (stripLeft l.reverse).reverse

/-- Python str.strip(): drop whitespace from both ends. -/
def pyStrip (l : List Char) : List Char :=
  stripLeft (stripRight l)

/-- The paragraph separator "\n\n" used by chunk_documents. -/
def nl2 : List Char := ['\n', '\n']

/-- Python s.split("\n\n"): split on non-overlapping occurrences of the
two-character separator, left to right; the empty string yields [""]. -/
def splitNl2 : List Char → List (List Char)
  | [] => [[]]
  | '\n' :: '\n' :: rest => [] :: splitNl2 rest
  | c :: rest =>
    match splitNl2 rest with
    | [] => [[c]]
    | p :: ps => (c :: p) :: ps

/-- Python s.split("\n"): split on every newline; the empty string yields [""]. -/
def splitNl : List Char → List (List Char)
  | [] => [[]]
  | '\n' :: rest => [] :: splitNl rest
  | c :: rest =>
    match splitNl rest with
    | [] => [[c]]
    | p :: ps => (c :: p) :: ps

/-- Helper for pyWords: accumulate the current word (reversed) while scanning. -/
def wordsAux : List Char → List Char → List (List Char)
  | [], acc => if acc = [] then [] else [acc.reverse]
  | c :: rest, acc =>
    if isPySpace c then
      if acc = [] then wordsAux rest [] else acc.reverse :: wordsAux rest []
    else wordsAux rest (c :: acc)

/-- Python s.split() with no argument: split on whitespace runs, dropping
empty pieces. -/
def pyWords (l : List Char) : List (List Char) :=
  wordsAux l []

/-- Python sep.join(pieces). -/
def joinSep (s : List Char) : List (List Char) → List Char
  | [] => []
  | [x] => x
  | x :: y :: xs => x ++ s ++ joinSep s (y :: xs)

/-- Modelled Python exceptions relevant to this program. -/
inductive PyExc where
  | valueError (msg : List Char)
  | indexError
  | runtimeError (msg : List Char)
deriving DecidableEq

instance {ε α : Type} [DecidableEq ε] [DecidableEq α] : DecidableEq (Except ε α) := fun
  | Except.ok a, Except.ok b =>
    if h : a = b then isTrue (by rw [h]) else isFalse (by intro hc; cases hc; exact h rfl)
  | Except.ok _, Except.error _ => isFalse (by intro hc; cases hc)
  | Except.error _, Except.ok _ => isFalse (by intro hc; cases hc)
  | Except.error e, Except.error f =>
    if h : e = f then isTrue (by rw [h]) else isFalse (by intro hc; cases hc; exact h rfl)

/-- The message shown when an exception reaches the orchestrator's handler
(str(e) for the exceptions we model). -/
def excMsg : PyExc → List Char
  | PyExc.valueError m => m
  | PyExc.indexError => "list index out of range".toList
  | PyExc.runtimeError m => m

/-- Document metadata, from SanskritDocumentLoader._extract_metadata. -/
structure Metadata where
  title : List Char
  source : List Char
  length : Nat
  num_lines : Nat
deriving DecidableEq

/-- A loaded document, from SanskritDocumentLoader.load_documents. -/
structure Document where
  filename : List Char
  content : List Char
  metadata : Metadata
deriving DecidableEq

/-- A chunk produced by SanskritDocumentLoader.chunk_documents; its Python
metadata dict is the parent document's metadata plus the chunk_id key,
modelled as the meta and chunk_id fields. -/
structure Chunk where
  content : List Char
  meta : Metadata
  chunk_id : Nat
deriving DecidableEq

/-- SanskritDocumentLoader._extract_metadata. Note that in Python
content.strip().split("\n") is never the empty list (it is [""] for empty
content), so the filename branch below is dead code, exactly as in the
source. -/
def extractMetadata (filename content : List Char) : Metadata :=
  let lines := splitNl (pyStrip content)
  let rawTitle := match lines with
    | [] => filename
    | t :: _ => t
  { title := joinSep [' '] (pyWords rawTitle)
    source := filename
    length := content.length
    num_lines := lines.length }

/-- The loader's persistent state: the self.documents list. -/
structure LoaderState where
  documents : List Document
deriving DecidableEq

/-- A directory listing: filenames with their contents, where none marks a
file whose read raises (such files are reported and skipped). -/
abbrev DirListing : Type := List (List Char × Option (List Char))

/-- Python filename.endswith(".txt"). -/
def endsTxt (fn : List Char) : Bool :=
  fn.reverse.take 4 = "txt.".toList

/-- The documents a single pass over a directory produces: every readable
.txt file, in listing order, with extracted metadata. -/
def dirDocs (files : DirListing) : List Document :=
  files.filterMap fun fc =>
    if endsTxt fc.1 then
      fc.2.map fun c => { filename := fc.1, content := c, metadata := extractMetadata fc.1 c }
    else none

/-- SanskritDocumentLoader.load_documents: a missing directory returns []
without touching state; otherwise loaded documents are appended to the
persistent self.documents list (never cleared) and the whole accumulated
list is returned. -/
def loadDocuments (st : LoaderState) (dir : Option DirListing) :
    LoaderState × List Document :=
  match dir with
  | none => (st, [])
  | some files =>
    let st' : LoaderState := { documents := st.documents ++ dirDocs files }
    (st', st'.documents)

/-- The chunking loop of SanskritDocumentLoader.chunk_documents for one
document: greedy paragraph-atomic packing. cur is current_chunk, cnt is
chunk_count. -/
def chunkLoop (size : Nat) (meta : Metadata) :
    List (List Char) → List Char → Nat → List Chunk
  | [], cur, cnt =>
    if pyStrip cur = [] then []
    else [{ content := pyStrip cur, meta := meta, chunk_id := cnt }]
  | q :: ps, cur, cnt =>
    let p := pyStrip q
    if p = [] then chunkLoop size meta ps cur cnt
    else if size < cur.length + p.length ∧ cur ≠ [] then
      { content := pyStrip cur, meta := meta, chunk_id := cnt }
        :: chunkLoop size meta ps (p ++ nl2) (cnt + 1)
    else chunkLoop size meta ps (cur ++ (p ++ nl2)) cnt

/-- chunk_documents restricted to one document: split on blank lines and run
the greedy loop with an empty buffer and chunk ids restarting at 0. -/
def chunkDocument (size : Nat) (doc : Document) : List Chunk :=
  chunkLoop size doc.metadata (splitNl2 doc.content) [] 0

/-- SanskritDocumentLoader.chunk_documents over the loader's state. -/
def chunkDocuments (st : LoaderState) (size : Nat) : List Chunk :=
  (st.documents.map (chunkDocument size)).flatten

/-- An embedding vector (the Python code uses 384-dimensional float arrays;
the dimension plays no role in any verified property). -/
abbrev Vec : Type := List Rat

/-- Squared Euclidean distance, the metric of faiss.IndexFlatL2. -/
def sqDist (u v : Vec) : Rat :=
  ((List.zip u v).map fun p => (p.1 - p.2) ^ 2).sum

/-- FLT_MAX, the distance faiss reports for padding slots when fewer than k
vectors are stored. -/
def fltMax : Rat := 340282346638528859811704183484516925440

/-- Ascending order on (distance, label) pairs, distances first. Ties in
distance are broken by label; faiss leaves tie order unspecified and no
verified property depends on it. -/
def hitLe (a b : Rat × Int) : Prop :=
  a.1 < b.1 ∨ (a.1 = b.1 ∧ a.2 ≤ b.2)

instance : DecidableRel hitLe := fun a b => by
  unfold hitLe; infer_instance

/-- Insertion step of the model's sort of scored hits. -/
def insertHit (a : Rat × Int) : List (Rat × Int) → List (Rat × Int)
  | [] => [a]
  | b :: l => if hitLe a b then a :: b :: l else b :: insertHit a l

/-- Sort scored hits ascending by distance. -/
def sortHits : List (Rat × Int) → List (Rat × Int)
  | [] => []
  | a :: l => insertHit a (sortHits l)

/-- faiss.IndexFlatL2.search for one query vector: exact k-nearest-neighbour
by squared L2 distance, ascending; when k exceeds the number of stored
vectors the remaining slots are padded with label -1 and FLT_MAX distance. -/
def faissSearch (db : List Vec) (qv : Vec) (k : Nat) : List (Rat × Int) :=
  let scored := db.enum.map fun iv => (sqDist qv iv.2, (iv.1 : Int))
  let top := (sortHits scored).take k
  top ++ List.replicate (k - top.length) (fltMax, (-1 : Int))

/-- A search result dict from SanskritVectorStore.search; the chunk's
metadata dict (parent metadata plus chunk_id) is carried as meta and
chunk_id. -/
structure RetrievedDoc where
  content : List Char
  meta : Metadata
  chunk_id : Nat
  distance : Rat
  similarity_score : Rat
deriving DecidableEq

/-- The similarity transform 1 / (1 + distance) applied to each result. -/
def simScore (d : Rat) : Rat := 1 / (1 + d)

/-- Build a result dict from a chunk and its reported distance. -/
def mkRetrieved (c : Chunk) (d : Rat) : RetrievedDoc :=
  { content := c.content, meta := c.meta, chunk_id := c.chunk_id
    distance := d, similarity_score := simScore d }

/-- Python list subscripting with an int index: negative indices count from
the end; an out-of-range index raises IndexError. -/
def pyGet (l : List α) (i : Int) : Except PyExc α :=
  let j := if i < 0 then i + l.length else i
  if h : 0 ≤ j ∧ j.toNat < l.length then Except.ok (l.get ⟨j.toNat, h.2⟩)
  else Except.error PyExc.indexError

/-- The state of SanskritVectorStore: the optional built index (the stored
vector set) and the chunk list. -/
structure VectorStoreState where
  index : Option (List Vec)
  chunks : List Chunk
deriving DecidableEq

/-- A vector store before build_index is called. -/
def initStore : VectorStoreState := { index := none, chunks := [] }

/-- SanskritVectorStore.build_index: store the chunks; take embeddings from
the cache if one exists, else encode every chunk content in order; index
the resulting vector set. No check relates cached vectors to the chunks. -/
def buildIndex (st : VectorStoreState) (embed : List Char → Vec)
    (chunks : List Chunk) (cache : Option (List Vec)) : VectorStoreState :=
  let embeddings := match cache with
    | some vs => vs
    | none => chunks.map fun c => embed c.content
  { st with index := some embeddings, chunks := chunks }

/-- The message of the ValueError raised by search before build_index. -/
def indexNotBuiltMsg : List Char :=
  "Index not built. Call build_index() first.".toList

/-- The result-collection loop of SanskritVectorStore.search: for each
(distance, label) pair, the guard keeps every label below len(chunks) -
including faiss's -1 padding label, which Python list subscripting then
resolves from the end of the chunk list (raising IndexError when the chunk
list is empty). -/
def searchLoop (chunks : List Chunk) :
    List (Rat × Int) → List RetrievedDoc → Except PyExc (List RetrievedDoc)
  | [], acc => Except.ok acc
  | hit :: rest, acc =>
    if hit.2 < (chunks.length : Int) then
      match pyGet chunks hit.2 with
      | Except.error e => Except.error e
      | Except.ok c => searchLoop chunks rest (acc ++ [mkRetrieved c hit.1])
    else searchLoop chunks rest acc

/-- SanskritVectorStore.search: raises ValueError before build_index,
otherwise embeds the query, runs the faiss search and collects results. -/
def VSsearch (st : VectorStoreState) (embed : List Char → Vec)
    (q : List Char) (k : Nat) : Except PyExc (List RetrievedDoc) :=
  match st.index with
  | none => Except.error (PyExc.valueError indexNotBuiltMsg)
  | some db => searchLoop st.chunks (faissSearch db (embed q) k) []

/-- A performance log entry; the timestamp is an opaque wall-clock string
with no bearing on any claim and is omitted. -/
structure LogEntry where
  query : List Char
  latency_seconds : Rat
  num_docs_retrieved : Nat
  success : Bool
deriving DecidableEq

/-- Python round to the nearest integer, halves to even (banker's rounding). -/
def pyRound (x : Rat) : Int :=
  let f : Int := Rat.floor x
  let frac : Rat := x - (f : Rat)
  if frac < 1 / 2 then f
  else if 1 / 2 < frac then f + 1
  else if f % 2 = 0 then f else f + 1

/-- Python round(x, 3). -/
def pyRound3 (x : Rat) : Rat :=
  (pyRound (x * 1000) : Rat) / 1000

/-- PerformanceLogger.log_query: append exactly one entry with the latency
rounded to three decimals. -/
def logQuery (logs : List LogEntry) (q : List Char) (latency : Rat)
    (numDocs : Nat) (succ : Bool) : List LogEntry :=
  logs ++ [{ query := q, latency_seconds := pyRound3 latency
             num_docs_retrieved := numDocs, success := succ }]

/-- Python min over a list (0 stands in for the unreached empty case). -/
def pyMin : List Rat → Rat
  | [] => 0
  | x :: xs => xs.foldl min x

/-- Python max over a list (0 stands in for the unreached empty case). -/
def pyMax : List Rat → Rat
  | [] => 0
  | x :: xs => xs.foldl max x

/-- PerformanceLogger.get_statistics, returned as the Python dict's ordered
key-value pairs (the empty-log early return has only three keys, as in the
source). -/
def getStatistics (logs : List LogEntry) : List (String × Rat) :=
  if logs = [] then
    [("total_queries", 0), ("average_latency", 0), ("success_rate", 0)]
  else
    let successful := logs.filter fun e => e.success
    let latencies := successful.map LogEntry.latency_seconds
    [("total_queries", (logs.length : Rat)),
     ("successful_queries", (successful.length : Rat)),
     ("average_latency",
       if latencies ≠ [] then latencies.sum / (latencies.length : Rat) else 0),
     ("min_latency", if latencies ≠ [] then pyMin latencies else 0),
     ("max_latency", if latencies ≠ [] then pyMax latencies else 0),
     ("success_rate",
       if logs ≠ [] then (successful.length : Rat) / (logs.length : Rat) * 100 else 0)]

/-- SanskritLLMGenerator.generate_response: join retrieved contents, cap the
context at 2000 characters with an ellipsis, build the fixed prompt and run
the generation pipeline (a fallible external call, passed as gen). -/
def generateResponse (gen : List Char → Except PyExc (List Char))
    (query : List Char) (docs : List RetrievedDoc) : Except PyExc (List Char) :=
  let context := joinSep nl2 (docs.map RetrievedDoc.content)
  let context := if 2000 < context.length then context.take 2000 ++ "...".toList else context
  let prompt := "Context: ".toList ++ context ++ "\n\nQuestion: ".toList ++ query
    ++ "\n\nBased on the context above, provide a detailed answer in Sanskrit:".toList
  match gen prompt with
  | Except.error e => Except.error e
  | Except.ok text => Except.ok text

/-- The canned Sanskrit not-found message of _create_simple_response. -/
def cannedNotFound : List Char :=
  "क्षम्यताम्, प्रश्नस्य उत्तरं दस्तावेजेषु न प्राप्तम्।".toList

/-- SanskritRAGPipeline._create_simple_response: the canned message when
nothing was retrieved, otherwise titles with 300-character excerpts under a
fixed header. -/
def createSimpleResponse (_query : List Char) (docs : List RetrievedDoc) : List Char :=
  if docs = [] then cannedNotFound
  else
    let parts := docs.map fun d =>
      "【".toList ++ d.meta.title ++ "】\n".toList ++ d.content.take 300
    "प्रश्नस्य आधारेण उत्तरम्:\n\n".toList ++ joinSep nl2 parts

/-- The orchestrator's state: loader, vector store and performance log. -/
structure PipelineState where
  loader : LoaderState
  store : VectorStoreState
  logs : List LogEntry

/-- The uniform response envelope of SanskritRAGPipeline.query: the success
dict (query, retrieved_docs, response, latency, num_docs_retrieved) or the
error dict (query, error, latency). -/
inductive QueryResult where
  | success (query : List Char) (docs : List RetrievedDoc)
      (response : List Char) (latency : Rat) (numDocs : Nat)
  | failure (query : List Char) (error : List Char) (latency : Rat)
deriving DecidableEq

/-- The body of the try block in SanskritRAGPipeline.query: retrieval then
synthesis, either of which may raise. -/
def RAGqueryBody (st : PipelineState) (embed : List Char → Vec)
    (gen : List Char → Except PyExc (List Char)) (question : List Char)
    (k : Nat) (useLlm : Bool) : Except PyExc (List RetrievedDoc × List Char) :=
  match VSsearch st.store embed question k with
  | Except.error e => Except.error e
  | Except.ok docs =>
    match (if useLlm then generateResponse gen question docs
           else Except.ok (createSimpleResponse question docs)) with
    | Except.error e => Except.error e
    | Except.ok resp => Except.ok (docs, resp)

/-- SanskritRAGPipeline.query: run the body; on success log the outcome and
return the success envelope, on any exception log a failed entry with zero
docs and return the error envelope. elapsed is the measured wall-clock
latency (a parameter, since time is external). -/
def RAGquery (st : PipelineState) (embed : List Char → Vec)
    (gen : List Char → Except PyExc (List Char)) (question : List Char)
    (k : Nat) (useLlm : Bool) (elapsed : Rat) : PipelineState × QueryResult :=
  match RAGqueryBody st embed gen question k useLlm with
  | Except.ok dr =>
    ({ st with logs := logQuery st.logs question elapsed dr.1.length true },
     QueryResult.success question dr.1 dr.2 elapsed dr.1.length)
  | Except.error e =>
    ({ st with logs := logQuery st.logs question elapsed 0 false },
     QueryResult.failure question (excMsg e) elapsed)

/-- SanskritRAGPipeline._setup_pipeline: load documents; if none were found
return early with the vector store untouched (index never built); otherwise
chunk with CHUNK_SIZE = 500 and build the index (cache passed through). -/
def setupPipeline (dir : Option DirListing) (embed : List Char → Vec)
    (cache : Option (List Vec)) : PipelineState :=
  let r := loadDocuments { documents := [] } dir
  if r.2 = [] then { loader := r.1, store := initStore, logs := [] }
  else
    { loader := r.1
      store := buildIndex initStore embed (chunkDocuments r.1 500) cache
      logs := [] }

/-- Iterated calls of load_documents on the same directory, from a fresh
loader, keeping the mutated state. -/
def loadIter (files : DirListing) : Nat → LoaderState
  | 0 => { documents := [] }
  | n + 1 => (loadDocuments (loadIter files n) (some files)).1

/-- All non-blank stripped paragraphs of a text, in order: what the chunking
pass actually distributes over chunks. -/
def filtParas (paras : List (List Char)) : List (List Char) :=
  (paras.map pyStrip).filter fun p => !p.isEmpty

/-- Modelled from the spec's words: the paragraph-boundary whitespace
normalization of a document's content, namely each paragraph stripped of
leading and trailing whitespace, blank paragraphs dropped, and the rest
joined by blank-line separators. -/
def specNormalize (content : List Char) : List Char :=
  joinSep nl2 (filtParas (splitNl2 content))

/-- Concatenation of per-paragraph buffers exactly as the chunking loop
accumulates them: each paragraph followed by the separator. -/
def buf (qs : List (List Char)) : List Char :=
  (qs.map fun q => q ++ nl2).flatten

/-- A paragraph as it sits in the loop's buffer: already stripped, non-blank. -/
def goodPara (p : List Char) : Prop := pyStrip p = p ∧ p ≠ []

/-! Lemmas about the Python strip model. -/

theorem stripLeft_append (a b : List Char) :
    stripLeft (a ++ b) = if stripLeft a = [] then stripLeft b else stripLeft a ++ b := by
  induction a with
  | nil => simp [stripLeft]
  | cons c a ih =>
    by_cases hc : isPySpace c
    · simpa [stripLeft, hc] using ih
    · simp [stripLeft, hc]

theorem stripRight_append (a b : List Char) :
    stripRight (a ++ b) = if stripRight b = [] then stripRight a else a ++ stripRight b := by
  unfold stripRight
  rw [List.reverse_append, stripLeft_append]
  by_cases h : stripLeft b.reverse = []
  · simp [h]
  · rw [if_neg h, if_neg (by simp [h])]
    simp

theorem stripLeft_length_le (l : List Char) : (stripLeft l).length ≤ l.length := by
  induction l with
  | nil => simp [stripLeft]
  | cons c l ih =>
    by_cases hc : isPySpace c
    · simp only [stripLeft, hc, if_true]
      exact Nat.le_succ_of_le ih
    · simp [stripLeft, hc]

theorem stripLeft_eq_of_length (l : List Char) (h : (stripLeft l).length = l.length) :
    stripLeft l = l := by
  cases l with
  | nil => rfl
  | cons c r =>
    by_cases hc : isPySpace c
    · exfalso
      simp only [stripLeft, hc, if_true] at h
      have := stripLeft_length_le r
      simp [List.length_cons] at h
      omega
    · simp [stripLeft, hc]

theorem stripRight_length_le (l : List Char) : (stripRight l).length ≤ l.length := by
  unfold stripRight
  calc (stripLeft l.reverse).reverse.length = (stripLeft l.reverse).length := by simp
    _ ≤ l.reverse.length := stripLeft_length_le _
    _ = l.length := by simp

theorem stripRight_eq_of_length (l : List Char) (h : (stripRight l).length = l.length) :
    stripRight l = l := by
  unfold stripRight at h ⊢
  have h2 : (stripLeft l.reverse).length = l.reverse.length := by
    simpa using h
  rw [stripLeft_eq_of_length _ h2]
  simp

theorem strip_eq_self {l : List Char} (h : pyStrip l = l) :
    stripLeft l = l ∧ stripRight l = l := by
  have hlen : (pyStrip l).length = l.length := by rw [h]
  have h1 : (stripLeft (stripRight l)).length ≤ (stripRight l).length := stripLeft_length_le _
  have h2 : (stripRight l).length ≤ l.length := stripRight_length_le _
  have hsr : stripRight l = l := by
    apply stripRight_eq_of_length
    have : (pyStrip l).length ≤ (stripRight l).length := h1
    omega
  constructor
  · have : pyStrip l = stripLeft l := by rw [pyStrip, hsr]
    rw [← this, h]
  · exact hsr

theorem stripLeft_idem (l : List Char) : stripLeft (stripLeft l) = stripLeft l := by
  induction l with
  | nil => rfl
  | cons c r ih =>
    by_cases hc : isPySpace c
    · simpa [stripLeft, hc] using ih
    · simp [stripLeft, hc]

theorem stripRight_idem (l : List Char) : stripRight (stripRight l) = stripRight l := by
  unfold stripRight
  rw [List.reverse_reverse, stripLeft_idem]

theorem stripRight_nl2 : stripRight nl2 = [] := by decide

theorem stripRight_append_nl2 (l : List Char) : stripRight (l ++ nl2) = stripRight l := by
  rw [stripRight_append, if_pos stripRight_nl2]

theorem pyStrip_append_nl2 (l : List Char) : pyStrip (l ++ nl2) = pyStrip l := by
  unfold pyStrip
  rw [stripRight_append_nl2]

theorem stripRight_stripLeft {l : List Char} (h : stripRight l = l) :
    stripRight (stripLeft l) = stripLeft l := by
  induction l with
  | nil => rfl
  | cons c r ih =>
    by_cases hc : isPySpace c
    · have hsplit : stripRight (c :: r) = if stripRight r = [] then stripRight [c] else [c] ++ stripRight r := by
        simpa using stripRight_append [c] r
      by_cases hr : stripRight r = []
      · exfalso
        rw [hsplit, if_pos hr] at h
        have : stripRight [c] = [] := by
          unfold stripRight
          simp [stripLeft, hc]
        rw [this] at h
        exact List.cons_ne_nil c r h.symm
      · rw [hsplit, if_neg hr] at h
        have hrr : stripRight r = r := by
          have := List.cons.injEq c (stripRight r) c r ▸ h
          simpa using h
        simp only [stripLeft, hc, if_true]
        exact ih hrr
    · simp only [stripLeft, hc, if_false]
      exact h

theorem pyStrip_idem (l : List Char) : pyStrip (pyStrip l) = pyStrip l := by
  unfold pyStrip
  have h2 : stripRight (stripLeft (stripRight l)) = stripLeft (stripRight l) :=
    stripRight_stripLeft (stripRight_idem l)
  rw [h2, stripLeft_idem]

/-! Lemmas about joinSep and the loop buffer. -/

theorem joinSep_ne_nil (qs : List (List Char)) (hq : qs ≠ [])
    (hall : ∀ p ∈ qs, p ≠ []) : joinSep nl2 qs ≠ [] := by
  rcases qs with _ | ⟨q, rest⟩
  · exact absurd rfl hq
  rcases rest with _ | ⟨q', rest'⟩
  · exact hall q (by simp)
  · have hqne : q ≠ [] := hall q (by simp)
    simp [joinSep, hqne]

theorem joinSep_append (s : List Char) :
    ∀ (a b : List (List Char)), a ≠ [] → b ≠ [] →
    joinSep s (a ++ b) = joinSep s a ++ s ++ joinSep s b := by
  intro a
  induction a with
  | nil => intro b h _; exact absurd rfl h
  | cons x a' ih =>
    intro b _ hb
    rcases a' with _ | ⟨y, t⟩
    · rcases b with _ | ⟨z, u⟩
      · exact absurd rfl hb
      · simp [joinSep]
    · have hrec := ih b (by simp) hb
      have h3 : joinSep s (x :: y :: (t ++ b)) = x ++ s ++ joinSep s (y :: (t ++ b)) := by
        simp [joinSep]
      have h4 : joinSep s (x :: y :: t) = x ++ s ++ joinSep s (y :: t) := by
        simp [joinSep]
      calc joinSep s (x :: y :: t ++ b) = x ++ s ++ joinSep s (y :: t ++ b) := h3
        _ = x ++ s ++ (joinSep s (y :: t) ++ s ++ joinSep s b) := by rw [hrec]
        _ = joinSep s (x :: y :: t) ++ s ++ joinSep s b := by
            rw [h4]; simp [List.append_assoc]

theorem buf_append_single (qs : List (List Char)) (p : List Char) :
    buf (qs ++ [p]) = buf qs ++ (p ++ nl2) := by
  simp [buf]

theorem buf_eq_joinSep (qs : List (List Char)) (hq : qs ≠ []) :
    buf qs = joinSep nl2 qs ++ nl2 := by
  induction qs with
  | nil => exact absurd rfl hq
  | cons q rest ih =>
    rcases rest with _ | ⟨q', rest'⟩
    · simp [buf, joinSep]
    · have := ih (by simp)
      simp only [buf, List.map_cons, List.flatten_cons] at this ⊢
      rw [this]
      simp [joinSep, List.append_assoc]

theorem buf_ne_nil (qs : List (List Char)) (hq : qs ≠ []) : buf qs ≠ [] := by
  rw [buf_eq_joinSep qs hq]
  simp [nl2]

theorem stripLeft_joinSep (qs : List (List Char)) (hq : qs ≠ [])
    (hall : ∀ p ∈ qs, goodPara p) : stripLeft (joinSep nl2 qs) = joinSep nl2 qs := by
  rcases qs with _ | ⟨q, rest⟩
  · exact absurd rfl hq
  have hgq := hall q (by simp)
  have hslq : stripLeft q = q := (strip_eq_self hgq.1).1
  rcases rest with _ | ⟨q', rest'⟩
  · exact hslq
  · have hqe : q ≠ [] := hgq.2
    rw [show joinSep nl2 (q :: q' :: rest') = q ++ (nl2 ++ joinSep nl2 (q' :: rest')) from by
      simp [joinSep, List.append_assoc]]
    rw [stripLeft_append, hslq, if_neg hqe]

theorem stripRight_joinSep (qs : List (List Char)) (hq : qs ≠ [])
    (hall : ∀ p ∈ qs, goodPara p) : stripRight (joinSep nl2 qs) = joinSep nl2 qs := by
  induction qs with
  | nil => exact absurd rfl hq
  | cons q rest ih =>
    have hgq := hall q (by simp)
    have hsrq : stripRight q = q := (strip_eq_self hgq.1).2
    rcases rest with _ | ⟨q', rest'⟩
    · exact hsrq
    · have hrec : stripRight (joinSep nl2 (q' :: rest')) = joinSep nl2 (q' :: rest') :=
        ih (by simp) (fun p hp => hall p (by simp [hp]))
      have hrne : joinSep nl2 (q' :: rest') ≠ [] :=
        joinSep_ne_nil _ (by simp) (fun p hp => (hall p (by simp [hp])).2)
      rw [show joinSep nl2 (q :: q' :: rest') = q ++ (nl2 ++ joinSep nl2 (q' :: rest')) from by
        simp [joinSep, List.append_assoc]]
      have h1 : stripRight (nl2 ++ joinSep nl2 (q' :: rest')) = nl2 ++ joinSep nl2 (q' :: rest') := by
        rw [stripRight_append, hrec, if_neg hrne]
      rw [stripRight_append, h1, if_neg (show ¬ nl2 ++ joinSep nl2 (q' :: rest') = [] by simp [nl2])]

theorem strip_joinSep (qs : List (List Char)) (hq : qs ≠ [])
    (hall : ∀ p ∈ qs, goodPara p) : pyStrip (joinSep nl2 qs) = joinSep nl2 qs := by
  unfold pyStrip
  rw [stripRight_joinSep qs hq hall, stripLeft_joinSep qs hq hall]

theorem strip_buf (qs : List (List Char)) (hq : qs ≠ [])
    (hall : ∀ p ∈ qs, goodPara p) : pyStrip (buf qs) = joinSep nl2 qs := by
  rw [buf_eq_joinSep qs hq, pyStrip_append_nl2, strip_joinSep qs hq hall]

theorem filtParas_cons_blank {q : List Char} (ps : List (List Char))
    (h : pyStrip q = []) : filtParas (q :: ps) = filtParas ps := by
  simp [filtParas, h]

theorem filtParas_cons {q : List Char} (ps : List (List Char))
    (h : pyStrip q ≠ []) : filtParas (q :: ps) = pyStrip q :: filtParas ps := by
  simp [filtParas, h]

/-- Characterization of the greedy chunking loop: starting from a buffer
holding the stripped paragraphs qs, the emitted chunk contents are exactly
the blank-line joins of a partition gs of qs followed by the remaining
non-blank stripped paragraphs, in order; every part is nonempty, every part
with at least two paragraphs joins to at most size characters, and chunk
ids are consecutive from cnt. -/
theorem chunkLoop_spec (size : Nat) (meta : Metadata) (paras : List (List Char)) :
    ∀ (qs : List (List Char)) (cnt : Nat),
    (∀ p ∈ qs, goodPara p) →
    (2 ≤ qs.length → (joinSep nl2 qs).length ≤ size) →
    ∃ gs : List (List (List Char)),
      gs.flatten = qs ++ filtParas paras ∧
      (∀ g ∈ gs, g ≠ []) ∧
      (∀ g ∈ gs, 2 ≤ g.length → (joinSep nl2 g).length ≤ size) ∧
      (∀ g ∈ gs, ∀ p ∈ g, goodPara p) ∧
      (chunkLoop size meta paras (buf qs) cnt).map Chunk.content = gs.map (joinSep nl2) ∧
      (chunkLoop size meta paras (buf qs) cnt).map Chunk.chunk_id = List.range' cnt gs.length := by
  induction paras with
  | nil =>
    intro qs cnt hgood hbound
    by_cases hq : qs = []
    · subst hq
      refine ⟨[], by simp [filtParas], by simp, by simp, by simp, ?_, ?_⟩
      · show (chunkLoop size meta [] (buf []) cnt).map Chunk.content = []
        rfl
      · show (chunkLoop size meta [] (buf []) cnt).map Chunk.chunk_id = List.range' cnt 0
        rfl
    · have hstrip := strip_buf qs hq hgood
      have hne : joinSep nl2 qs ≠ [] := joinSep_ne_nil qs hq (fun p hp => (hgood p hp).2)
      have heval : chunkLoop size meta [] (buf qs) cnt
          = [{ content := joinSep nl2 qs, meta := meta, chunk_id := cnt }] := by
        simp [chunkLoop, hstrip, hne]
      refine ⟨[qs], ?_, ?_, ?_, ?_, ?_, ?_⟩
      · simp [filtParas]
      · simpa using hq
      · intro g hg hlen
        simp at hg; subst hg
        exact hbound hlen
      · intro g hg
        simp at hg; subst hg
        exact hgood
      · rw [heval]; simp
      · rw [heval]; simp [List.range']
  | cons q ps ih =>
    intro qs cnt hgood hbound
    by_cases hp : pyStrip q = []
    · have heval : chunkLoop size meta (q :: ps) (buf qs) cnt
          = chunkLoop size meta ps (buf qs) cnt := by
        simp [chunkLoop, hp]
      rcases ih qs cnt hgood hbound with ⟨gs, h1, h2, h3, h4, h5, h6⟩
      refine ⟨gs, ?_, h2, h3, h4, ?_, ?_⟩
      · rw [h1, filtParas_cons_blank ps hp]
      · rw [heval]; exact h5
      · rw [heval]; exact h6
    · by_cases hcond : size < (buf qs).length + (pyStrip q).length ∧ buf qs ≠ []
      · have hq : qs ≠ [] := by
          intro h; subst h
          exact hcond.2 rfl
        have hstrip := strip_buf qs hq hgood
        have hgood1 : ∀ p ∈ [pyStrip q], goodPara p := by
          intro p hp'
          simp at hp'; subst hp'
          exact ⟨pyStrip_idem q, hp⟩
        have hbuf1 : buf [pyStrip q] = pyStrip q ++ nl2 := by simp [buf]
        rcases ih [pyStrip q] (cnt + 1) hgood1 (by intro hh; simp at hh) with
          ⟨gs, h1, h2, h3, h4, h5, h6⟩
        have heval : chunkLoop size meta (q :: ps) (buf qs) cnt
            = { content := pyStrip (buf qs), meta := meta, chunk_id := cnt }
              :: chunkLoop size meta ps (pyStrip q ++ nl2) (cnt + 1) := by
          simp [chunkLoop, hp, hcond]
        rw [hbuf1] at h5 h6
        refine ⟨qs :: gs, ?_, ?_, ?_, ?_, ?_, ?_⟩
        · rw [List.flatten_cons, h1, filtParas_cons ps hp]
          simp
        · intro g hg
          rcases List.mem_cons.1 hg with rfl | hg'
          · exact hq
          · exact h2 g hg'
        · intro g hg
          rcases List.mem_cons.1 hg with rfl | hg'
          · exact hbound
          · exact h3 g hg'
        · intro g hg
          rcases List.mem_cons.1 hg with rfl | hg'
          · exact hgood
          · exact h4 g hg'
        · rw [heval, hstrip]
          simp only [List.map_cons, h5]
        · rw [heval]
          simp only [List.map_cons, h6]
          rfl
      · have hnew : ∀ p' ∈ qs ++ [pyStrip q], goodPara p' := by
          intro p' hp'
          rcases List.mem_append.1 hp' with h | h
          · exact hgood p' h
          · simp at h; subst h
            exact ⟨pyStrip_idem q, hp⟩
        have hbound' : 2 ≤ (qs ++ [pyStrip q]).length →
            (joinSep nl2 (qs ++ [pyStrip q])).length ≤ size := by
          intro hlen
          have hq : qs ≠ [] := by
            intro h; subst h
            simp at hlen
          have hc : ¬ size < (buf qs).length + (pyStrip q).length := by
            intro h; exact hcond ⟨h, buf_ne_nil qs hq⟩
          push_neg at hc
          rw [joinSep_append nl2 qs [pyStrip q] hq (by simp)]
          have hbl : (buf qs).length = (joinSep nl2 qs).length + 2 := by
            rw [buf_eq_joinSep qs hq]
            simp [nl2]
          rw [show joinSep nl2 [pyStrip q] = pyStrip q from rfl]
          simp only [List.length_append]
          simp [nl2] at hbl ⊢
          omega
        rcases ih (qs ++ [pyStrip q]) cnt hnew hbound' with ⟨gs, h1, h2, h3, h4, h5, h6⟩
        have heval : chunkLoop size meta (q :: ps) (buf qs) cnt
            = chunkLoop size meta ps (buf qs ++ (pyStrip q ++ nl2)) cnt := by
          simp [chunkLoop, hp, hcond]
        rw [buf_append_single qs (pyStrip q)] at h5 h6
        refine ⟨gs, ?_, h2, h3, h4, ?_, ?_⟩
        · rw [h1, filtParas_cons ps hp]
          simp
        · rw [heval]; exact h5
        · rw [heval]; exact h6

theorem joinSep_flatten (s : List Char) :
    ∀ gs : List (List (List Char)), (∀ g ∈ gs, g ≠ []) →
    joinSep s (gs.map (joinSep s)) = joinSep s gs.flatten := by
  intro gs
  induction gs with
  | nil => intro _; rfl
  | cons g rest ih =>
    intro h
    rcases rest with _ | ⟨g', rest'⟩
    · simp [joinSep]
    · have hg : g ≠ [] := h g (by simp)
      have hflat : (List.flatten (g' :: rest')) ≠ [] := by
        have hg' : g' ≠ [] := h g' (by simp)
        simp only [List.flatten_cons]
        simp [hg']
      calc joinSep s ((g :: g' :: rest').map (joinSep s))
          = joinSep s g ++ s ++ joinSep s ((g' :: rest').map (joinSep s)) := by
            simp [joinSep]
        _ = joinSep s g ++ s ++ joinSep s (List.flatten (g' :: rest')) := by
            rw [ih (fun g₂ hg₂ => h g₂ (by simp [hg₂]))]
        _ = joinSep s (g ++ List.flatten (g' :: rest')) :=
            (joinSep_append s g _ hg hflat).symm
        _ = joinSep s (List.flatten (g :: g' :: rest')) := by
            simp

theorem mem_filtParas {p : List Char} {paras : List (List Char)}
    (h : p ∈ filtParas paras) : ∃ q ∈ paras, p = pyStrip q := by
  unfold filtParas at h
  rcases List.mem_filter.1 h with ⟨hmem, _⟩
  rcases List.mem_map.1 hmem with ⟨q, hq, rfl⟩
  exact ⟨q, hq, rfl⟩

/-- C2: for every loader state and positive chunk_size, every chunk emitted
by chunk_documents has content of length at most chunk_size, except a chunk
that is a single (stripped) source paragraph of its document, which may be
oversized but is never split. -/
theorem chunking_respects_size (st : LoaderState) (size : Nat) (hsize : 0 < size) :
    ∀ c ∈ chunkDocuments st size,
      c.content.length ≤ size ∨
      ∃ doc ∈ st.documents, ∃ q ∈ splitNl2 doc.content,
        c.content = pyStrip q ∧ size < c.content.length := by
  intro c hc
  rcases List.mem_flatten.1 hc with ⟨l, hl, hcl⟩
  rcases List.mem_map.1 hl with ⟨doc, hdoc, rfl⟩
  rcases chunkLoop_spec size doc.metadata (splitNl2 doc.content) [] 0 (by simp) (by simp) with
    ⟨gs, h1, h2, h3, h4, h5, h6⟩
  have hcc : c.content ∈ gs.map (joinSep nl2) := by
    rw [← h5]
    exact List.mem_map_of_mem Chunk.content hcl
  rcases List.mem_map.1 hcc with ⟨g, hg, hgc⟩
  rcases g with _ | ⟨p, g'⟩
  · exact absurd rfl (h2 _ hg)
  rcases g' with _ | ⟨p', g''⟩
  · by_cases hlen : c.content.length ≤ size
    · exact Or.inl hlen
    · right
      have hpc : c.content = p := by
        rw [← hgc]
        simp [joinSep]
      have hpmem : p ∈ gs.flatten := List.mem_flatten.2 ⟨[p], hg, by simp⟩
      rw [h1] at hpmem
      simp only [List.nil_append] at hpmem
      rcases mem_filtParas hpmem with ⟨q, hq, hpq⟩
      exact ⟨doc, hdoc, q, hq, by rw [hpc, hpq], by omega⟩
  · left
    rw [← hgc]
    exact h3 _ hg (by simp)

/-- Witness for C2 at a concrete one-document corpus. -/
theorem chunking_respects_size_witness :
    ({ content := "Hello\n\nWorld".toList,
       meta := extractMetadata "a.txt".toList "Hello\n\nWorld".toList,
       chunk_id := 0 } : Chunk).content.length ≤ 500 ∨
    ∃ doc ∈ ({ documents := [{ filename := "a.txt".toList,
                               content := "Hello\n\nWorld".toList,
                               metadata := extractMetadata "a.txt".toList "Hello\n\nWorld".toList }] } : LoaderState).documents,
      ∃ q ∈ splitNl2 doc.content,
        ({ content := "Hello\n\nWorld".toList,
           meta := extractMetadata "a.txt".toList "Hello\n\nWorld".toList,
           chunk_id := 0 } : Chunk).content = pyStrip q ∧
        500 < ({ content := "Hello\n\nWorld".toList,
                 meta := extractMetadata "a.txt".toList "Hello\n\nWorld".toList,
                 chunk_id := 0 } : Chunk).content.length :=
  chunking_respects_size
    { documents := [{ filename := "a.txt".toList,
                      content := "Hello\n\nWorld".toList,
                      metadata := extractMetadata "a.txt".toList "Hello\n\nWorld".toList }] }
    500 (by decide) _ (by decide)

/-- C3: for every document and chunk size, joining the chunk contents of
chunk_documents in chunk_id order (the ids are exactly 0, 1, 2, ... in
emission order) with the blank-line separator reconstructs the original
content up to paragraph-boundary whitespace normalization (each paragraph
stripped, blank paragraphs dropped, paragraphs separated by one blank
line). -/
theorem chunks_reconstruct_document (size : Nat) (doc : Document) :
    joinSep nl2 ((chunkDocument size doc).map Chunk.content) = specNormalize doc.content ∧
    (chunkDocument size doc).map Chunk.chunk_id = List.range (chunkDocument size doc).length := by
  rcases chunkLoop_spec size doc.metadata (splitNl2 doc.content) [] 0 (by simp) (by simp) with
    ⟨gs, h1, h2, h3, h4, h5, h6⟩
  constructor
  · show joinSep nl2 ((chunkLoop size doc.metadata (splitNl2 doc.content) (buf []) 0).map Chunk.content)
      = specNormalize doc.content
    rw [h5, joinSep_flatten nl2 gs h2, h1]
    rfl
  · have hlen : (chunkDocument size doc).length = gs.length := by
      have := congrArg List.length h5
      simpa using this
    show (chunkLoop size doc.metadata (splitNl2 doc.content) (buf []) 0).map Chunk.chunk_id
      = List.range (chunkDocument size doc).length
    rw [h6, hlen, List.range_eq_range']

/-- C7: the spec says an empty file's title falls back to the filename, but
in Python content.strip().split("\n") is [""] (never the empty list), so
the fallback branch of lines[0] if lines else filename is dead and the
extracted title of an empty file is the empty string, not the filename.
The third conjunct exhibits the culprit: splitting stripped empty content
yields the one-element list containing the empty line. -/
theorem empty_content_title_bug :
    (extractMetadata "a.txt".toList ([] : List Char)).title = [] ∧
    ("a.txt".toList : List Char) ≠ [] ∧
    splitNl (pyStrip ([] : List Char)) = [[]] := by
  decide

/-- Concrete fixtures for the search over-count bug: a store indexing a
single chunk, with a trivial embedding. -/
def bugMeta : Metadata := extractMetadata "a.txt".toList "abc".toList

def bugChunk : Chunk :=
  { content := "abc".toList, meta := bugMeta, chunk_id := 0 }

def embedZero : List Char → Vec := fun _ => [0]

def bugStore : VectorStoreState := buildIndex initStore embedZero [bugChunk] none

/-- C1: with a single indexed chunk, search(query, k = 2) returns two
results, not min(2, 1) = 1: faiss pads the missing slot with label -1 and
FLT_MAX distance, the guard idx less than len(chunks) admits -1, and Python
list indexing resolves -1 to the last chunk, duplicating it; with zero
chunks indexed the same padding label raises IndexError instead of
returning all available chunks without error. -/
theorem search_overcount_bug :
    VSsearch bugStore embedZero "q".toList 2
      = Except.ok [mkRetrieved bugChunk 0, mkRetrieved bugChunk fltMax] ∧
    [mkRetrieved bugChunk 0, mkRetrieved bugChunk fltMax].length = 2 ∧
    min 2 bugStore.chunks.length = 1 ∧
    VSsearch { index := some [], chunks := [] } embedZero "q".toList 3
      = Except.error PyExc.indexError := by
  refine ⟨?_, rfl, by decide, ?_⟩
  · have hb : bugStore = { index := some [[0]], chunks := [bugChunk] } := rfl
    rw [hb]
    simp only [VSsearch, faissSearch]
    norm_num [sqDist, embedZero, sortHits, insertHit, searchLoop, pyGet, mkRetrieved,
      List.enum]
  · simp only [VSsearch, faissSearch]
    norm_num [sortHits, insertHit, searchLoop, pyGet, List.enum]

/-- A generation oracle that always succeeds with an empty answer (the
generator is never reached in the scenarios below). -/
def genNone : List Char → Except PyExc (List Char) := fun _ => Except.ok []

/-- The pipeline after setup over an empty data directory: no documents, so
the vector index is never built. -/
def emptyPipeline : PipelineState := setupPipeline (some []) embedZero none

/-- C4 counterexample: a query against the empty corpus does not return an
empty retrieved set with the canned not-found answer; setup skipped index
building, so retrieval raises the index-not-built ValueError and query
returns the error envelope. -/
theorem empty_corpus_query_errors :
    (RAGquery emptyPipeline embedZero genNone "q".toList 3 false 1).2
      = QueryResult.failure "q".toList indexNotBuiltMsg 1 ∧
    (RAGquery emptyPipeline embedZero genNone "q".toList 3 false 1).2
      ≠ QueryResult.success "q".toList [] cannedNotFound 1 0 := by
  decide

/-- C4 amended: against an empty corpus the index is never built, so for
every query the orchestrator returns the error envelope carrying the
index-not-built message and the measured latency; the canned Sanskrit
not-found message is what the templated responder returns exactly when it
receives zero retrieved documents. -/
theorem empty_corpus_amended (files : DirListing) (embed : List Char → Vec)
    (gen : List Char → Except PyExc (List Char)) (cache : Option (List Vec))
    (question : List Char) (k : Nat) (useLlm : Bool) (elapsed : Rat)
    (hfiles : dirDocs files = []) :
    (RAGquery (setupPipeline (some files) embed cache) embed gen question k useLlm elapsed).2
      = QueryResult.failure question indexNotBuiltMsg elapsed ∧
    createSimpleResponse question [] = cannedNotFound := by
  constructor
  · have hsetup : setupPipeline (some files) embed cache
        = { loader := { documents := [] ++ dirDocs files }, store := initStore, logs := [] } := by
      simp [setupPipeline, loadDocuments, hfiles]
    rw [hsetup]
    simp [RAGquery, RAGqueryBody, VSsearch, initStore, excMsg]
  · rfl

/-- Witness for C4's amended statement on the concrete empty directory. -/
theorem empty_corpus_amended_witness :
    (RAGquery (setupPipeline (some []) embedZero none) embedZero genNone
        "q".toList 3 false 1).2
      = QueryResult.failure "q".toList indexNotBuiltMsg 1 ∧
    createSimpleResponse "q".toList [] = cannedNotFound :=
  empty_corpus_amended [] embedZero genNone none "q".toList 3 false 1 (by decide)

/-- C5: every exception raised inside the query try block (retrieval or
synthesis) is caught and converted into the error envelope carrying the
query text, the exception message and the measured latency; RAGquery's
codomain is the plain envelope type, embedding the fact that no exception
propagates to the caller. -/
theorem query_catches_exceptions (st : PipelineState) (embed : List Char → Vec)
    (gen : List Char → Except PyExc (List Char)) (question : List Char) (k : Nat)
    (useLlm : Bool) (elapsed : Rat) (e : PyExc)
    (he : RAGqueryBody st embed gen question k useLlm = Except.error e) :
    (RAGquery st embed gen question k useLlm elapsed).2
      = QueryResult.failure question (excMsg e) elapsed := by
  simp [RAGquery, he]

/-- Witness for C5 at the empty-corpus pipeline, whose retrieval raises. -/
theorem query_catches_exceptions_witness :
    (RAGquery emptyPipeline embedZero genNone "q".toList 3 false 1).2
      = QueryResult.failure "q".toList (excMsg (PyExc.valueError indexNotBuiltMsg)) 1 :=
  query_catches_exceptions emptyPipeline embedZero genNone "q".toList 3 false 1
    (PyExc.valueError indexNotBuiltMsg) (by decide)

/-- C6: every call to query appends exactly one entry to the performance
log; when the body raises, the entry records success = false, zero docs
retrieved, and the latency measured up to the failure (rounded to three
decimals by log_query); when it succeeds, the entry records success = true
and the retrieved count. -/
theorem query_logs_exactly_once (st : PipelineState) (embed : List Char → Vec)
    (gen : List Char → Except PyExc (List Char)) (question : List Char) (k : Nat)
    (useLlm : Bool) (elapsed : Rat) :
    (RAGquery st embed gen question k useLlm elapsed).1.logs.length = st.logs.length + 1 ∧
    (∀ e, RAGqueryBody st embed gen question k useLlm = Except.error e →
      (RAGquery st embed gen question k useLlm elapsed).1.logs
        = st.logs ++ [{ query := question, latency_seconds := pyRound3 elapsed,
                        num_docs_retrieved := 0, success := false }]) ∧
    (∀ docs resp, RAGqueryBody st embed gen question k useLlm = Except.ok (docs, resp) →
      (RAGquery st embed gen question k useLlm elapsed).1.logs
        = st.logs ++ [{ query := question, latency_seconds := pyRound3 elapsed,
                        num_docs_retrieved := docs.length, success := true }]) := by
  refine ⟨?_, ?_, ?_⟩
  · unfold RAGquery
    cases RAGqueryBody st embed gen question k useLlm <;> simp [logQuery]
  · intro e he
    simp [RAGquery, he, logQuery]
  · intro docs resp hok
    simp [RAGquery, hok, logQuery]

/-- Witness for C6: the failed empty-corpus query appends one failure entry
with zero docs. -/
theorem query_logs_exactly_once_witness :
    (RAGquery emptyPipeline embedZero genNone "q".toList 3 false 1).1.logs
      = emptyPipeline.logs
        ++ [{ query := "q".toList, latency_seconds := pyRound3 1,
              num_docs_retrieved := 0, success := false }] :=
  (query_logs_exactly_once emptyPipeline embedZero genNone "q".toList 3 false 1).2.1
    (PyExc.valueError indexNotBuiltMsg) (by decide)

theorem mem_insertHit {x a : Rat × Int} {l : List (Rat × Int)}
    (h : x ∈ insertHit a l) : x = a ∨ x ∈ l := by
  induction l with
  | nil => simpa [insertHit] using h
  | cons b l ih =>
    unfold insertHit at h
    by_cases hc : hitLe a b
    · rw [if_pos hc] at h
      simpa using h
    · rw [if_neg hc] at h
      rcases List.mem_cons.1 h with rfl | h2
      · right; simp
      · rcases ih h2 with h3 | h3
        · left; exact h3
        · right; simp [h3]

theorem mem_sortHits {x : Rat × Int} {l : List (Rat × Int)}
    (h : x ∈ sortHits l) : x ∈ l := by
  induction l with
  | nil => simpa [sortHits] using h
  | cons a l ih =>
    unfold sortHits at h
    rcases mem_insertHit h with rfl | h2
    · simp
    · simp [ih h2]

theorem sqDist_nonneg (u v : Vec) : 0 ≤ sqDist u v := by
  unfold sqDist
  apply List.sum_nonneg
  intro x hx
  rcases List.mem_map.1 hx with ⟨p, _, rfl⟩
  positivity

theorem faissSearch_dist_nonneg {db : List Vec} {qv : Vec} {k : Nat} :
    ∀ hit ∈ faissSearch db qv k, 0 ≤ hit.1 := by
  intro hit h
  unfold faissSearch at h
  rcases List.mem_append.1 h with h | h
  · have h2 := mem_sortHits (List.take_subset _ _ h)
    rcases List.mem_map.1 h2 with ⟨iv, _, heq⟩
    rw [← heq]
    exact sqDist_nonneg qv iv.2
  · have := List.eq_of_mem_replicate h
    rw [this]
    norm_num [fltMax]

theorem searchLoop_ok (chunks : List Chunk) (hits : List (Rat × Int)) :
    ∀ (acc rs : List RetrievedDoc), searchLoop chunks hits acc = Except.ok rs →
    ∀ r ∈ rs, r ∈ acc ∨ ∃ hit ∈ hits, ∃ c : Chunk, r = mkRetrieved c hit.1 := by
  induction hits with
  | nil =>
    intro acc rs h r hr
    left
    have hacc : acc = rs := by simpa [searchLoop] using h
    rwa [← hacc] at hr
  | cons hit rest ih =>
    intro acc rs h r hr
    unfold searchLoop at h
    by_cases hg : hit.2 < (chunks.length : Int)
    · rw [if_pos hg] at h
      cases hget : pyGet chunks hit.2 with
      | error e =>
        rw [hget] at h
        exact Except.noConfusion h
      | ok c =>
        rw [hget] at h
        rcases ih _ _ h r hr with hmem | ⟨hit', h1, c', h2⟩
        · rcases List.mem_append.1 hmem with h3 | h3
          · left; exact h3
          · right
            refine ⟨hit, by simp, c, ?_⟩
            simpa using h3
        · right
          exact ⟨hit', List.mem_cons_of_mem _ h1, c', h2⟩
    · rw [if_neg hg] at h
      rcases ih _ _ h r hr with hmem | ⟨hit', h1, c', h2⟩
      · left; exact hmem
      · right
        exact ⟨hit', List.mem_cons_of_mem _ h1, c', h2⟩

/-- C8: every result dict produced by a successful search carries
similarity_score equal to 1 / (1 + distance) and a non-negative distance;
for non-negative distances the score lies strictly in (0, 1]; and the score
is strictly decreasing in distance. -/
theorem similarity_score_spec (st : VectorStoreState) (embed : List Char → Vec)
    (q : List Char) (k : Nat) (rs : List RetrievedDoc)
    (hrs : VSsearch st embed q k = Except.ok rs) :
    (∀ r ∈ rs, r.similarity_score = simScore r.distance ∧ 0 ≤ r.distance) ∧
    (∀ d : Rat, 0 ≤ d → 0 < simScore d ∧ simScore d ≤ 1) ∧
    (∀ d₁ d₂ : Rat, 0 ≤ d₁ → d₁ < d₂ → simScore d₂ < simScore d₁) := by
  refine ⟨?_, ?_, ?_⟩
  · intro r hr
    unfold VSsearch at hrs
    cases hidx : st.index with
    | none =>
      rw [hidx] at hrs
      exact Except.noConfusion hrs
    | some db =>
      rw [hidx] at hrs
      rcases searchLoop_ok st.chunks (faissSearch db (embed q) k) [] rs hrs r hr with
        hmem | ⟨hit, hhit, c, rfl⟩
      · exact absurd hmem (List.not_mem_nil r)
      · refine ⟨rfl, ?_⟩
        have := faissSearch_dist_nonneg hit hhit
        simpa [mkRetrieved] using this
  · intro d hd
    have h1 : (0 : Rat) < 1 + d := by linarith
    constructor
    · exact div_pos one_pos h1
    · unfold simScore
      rw [div_le_one h1]
      linarith
  · intro d₁ d₂ hd1 hlt
    have ha : (0 : Rat) < 1 + d₁ := by linarith
    unfold simScore
    exact div_lt_div_of_pos_left one_pos ha (by linarith)

/-- Witness for C8 at a concrete successful one-result search. -/
theorem similarity_score_spec_witness :
    (∀ r ∈ [mkRetrieved bugChunk 0],
      r.similarity_score = simScore r.distance ∧ 0 ≤ r.distance) ∧
    (∀ d : Rat, 0 ≤ d → 0 < simScore d ∧ simScore d ≤ 1) ∧
    (∀ d₁ d₂ : Rat, 0 ≤ d₁ → d₁ < d₂ → simScore d₂ < simScore d₁) :=
  similarity_score_spec bugStore embedZero "q".toList 1 [mkRetrieved bugChunk 0] (by
    have hb : bugStore = { index := some [[0]], chunks := [bugChunk] } := rfl
    rw [hb]
    simp only [VSsearch, faissSearch]
    norm_num [sqDist, embedZero, sortHits, insertHit, searchLoop, pyGet, mkRetrieved,
      List.enum])

theorem foldl_min_mem (xs : List Rat) : ∀ x : Rat, xs.foldl min x ∈ x :: xs := by
  induction xs with
  | nil => intro x; simp
  | cons a l ih =>
    intro x
    simp only [List.foldl_cons]
    rcases List.mem_cons.1 (ih (min x a)) with h1 | h1
    · rcases min_choice x a with h2 | h2
      · rw [h1, h2]; simp
      · rw [h1, h2]; simp
    · simp [h1]

theorem foldl_min_le_init (xs : List Rat) : ∀ x : Rat, xs.foldl min x ≤ x := by
  induction xs with
  | nil => intro x; simp
  | cons a l ih =>
    intro x
    simp only [List.foldl_cons]
    exact le_trans (ih (min x a)) (min_le_left x a)

theorem foldl_min_le_mem (xs : List Rat) : ∀ x y : Rat, y ∈ xs → xs.foldl min x ≤ y := by
  induction xs with
  | nil => intro x y h; simp at h
  | cons a l ih =>
    intro x y hy
    simp only [List.foldl_cons]
    rcases List.mem_cons.1 hy with rfl | h
    · exact le_trans (foldl_min_le_init l (min x y)) (min_le_right x y)
    · exact ih (min x a) y h

theorem foldl_max_mem (xs : List Rat) : ∀ x : Rat, xs.foldl max x ∈ x :: xs := by
  induction xs with
  | nil => intro x; simp
  | cons a l ih =>
    intro x
    simp only [List.foldl_cons]
    rcases List.mem_cons.1 (ih (max x a)) with h1 | h1
    · rcases max_choice x a with h2 | h2
      · rw [h1, h2]; simp
      · rw [h1, h2]; simp
    · simp [h1]

theorem foldl_max_init_le (xs : List Rat) : ∀ x : Rat, x ≤ xs.foldl max x := by
  induction xs with
  | nil => intro x; simp
  | cons a l ih =>
    intro x
    simp only [List.foldl_cons]
    exact le_trans (le_max_left x a) (ih (max x a))

theorem foldl_max_mem_le (xs : List Rat) : ∀ x y : Rat, y ∈ xs → y ≤ xs.foldl max x := by
  induction xs with
  | nil => intro x y h; simp at h
  | cons a l ih =>
    intro x y hy
    simp only [List.foldl_cons]
    rcases List.mem_cons.1 hy with rfl | h
    · exact le_trans (le_max_right x y) (foldl_max_init_le l (max x y))
    · exact ih (max x a) y h

theorem pyMin_mem {l : List Rat} (h : l ≠ []) : pyMin l ∈ l := by
  rcases l with _ | ⟨x, xs⟩
  · exact absurd rfl h
  · exact foldl_min_mem xs x

theorem pyMin_le {l : List Rat} : ∀ y ∈ l, pyMin l ≤ y := by
  rcases l with _ | ⟨x, xs⟩
  · intro y h; simp at h
  · intro y hy
    rcases List.mem_cons.1 hy with rfl | h
    · exact foldl_min_le_init xs y
    · exact foldl_min_le_mem xs x y h

theorem pyMax_mem {l : List Rat} (h : l ≠ []) : pyMax l ∈ l := by
  rcases l with _ | ⟨x, xs⟩
  · exact absurd rfl h
  · exact foldl_max_mem xs x

theorem le_pyMax {l : List Rat} : ∀ y ∈ l, y ≤ pyMax l := by
  rcases l with _ | ⟨x, xs⟩
  · intro y h; simp at h
  · intro y hy
    rcases List.mem_cons.1 hy with rfl | h
    · exact foldl_max_init_le xs y
    · exact foldl_max_mem_le xs x y h

/-- C9: on a nonempty log, get_statistics reports the total entry count,
the success rate as the percentage of entries whose success flag is true,
and, when at least one entry succeeded, the average latency as sum over
count of the successful entries' latencies and the minimum and maximum
latency over the successful entries only. -/
theorem statistics_spec (logs : List LogEntry) (hne : logs ≠ []) :
    List.lookup "total_queries" (getStatistics logs) = some ((logs.length : Rat)) ∧
    List.lookup "success_rate" (getStatistics logs)
      = some (((logs.filter fun e => e.success).length : Rat) / (logs.length : Rat) * 100) ∧
    ((logs.filter fun e => e.success) ≠ [] →
      List.lookup "average_latency" (getStatistics logs)
        = some ((((logs.filter fun e => e.success).map LogEntry.latency_seconds).sum)
            / ((((logs.filter fun e => e.success).map LogEntry.latency_seconds).length : Rat))) ∧
      (∃ m, List.lookup "min_latency" (getStatistics logs) = some m ∧
        m ∈ (logs.filter fun e => e.success).map LogEntry.latency_seconds ∧
        ∀ x ∈ (logs.filter fun e => e.success).map LogEntry.latency_seconds, m ≤ x) ∧
      (∃ M, List.lookup "max_latency" (getStatistics logs) = some M ∧
        M ∈ (logs.filter fun e => e.success).map LogEntry.latency_seconds ∧
        ∀ x ∈ (logs.filter fun e => e.success).map LogEntry.latency_seconds, x ≤ M)) := by
  unfold getStatistics
  rw [if_neg hne]
  refine ⟨?_, ?_, ?_⟩
  · simp [List.lookup]
  · simp [List.lookup, hne]
  · intro hsucc
    have hlat : (logs.filter fun e => e.success).map LogEntry.latency_seconds ≠ [] := by
      simpa using hsucc
    refine ⟨?_, ?_, ?_⟩
    · simp [List.lookup, hlat]
    · refine ⟨pyMin ((logs.filter fun e => e.success).map LogEntry.latency_seconds),
        ?_, pyMin_mem hlat, fun x hx => pyMin_le x hx⟩
      simp [List.lookup, hlat]
    · refine ⟨pyMax ((logs.filter fun e => e.success).map LogEntry.latency_seconds),
        ?_, pyMax_mem hlat, fun x hx => le_pyMax x hx⟩
      simp [List.lookup, hlat]

/-- Concrete two-entry log (one success, one failure) for the C9 witness. -/
def wLogs : List LogEntry :=
  [{ query := "a".toList, latency_seconds := 2, num_docs_retrieved := 3, success := true },
   { query := "b".toList, latency_seconds := 5, num_docs_retrieved := 0, success := false }]

/-- Witness for C9 on the concrete log. -/
theorem statistics_spec_witness :
    List.lookup "total_queries" (getStatistics wLogs) = some ((wLogs.length : Rat)) ∧
    List.lookup "success_rate" (getStatistics wLogs)
      = some (((wLogs.filter fun e => e.success).length : Rat) / (wLogs.length : Rat) * 100) ∧
    ((wLogs.filter fun e => e.success) ≠ [] →
      List.lookup "average_latency" (getStatistics wLogs)
        = some ((((wLogs.filter fun e => e.success).map LogEntry.latency_seconds).sum)
            / ((((wLogs.filter fun e => e.success).map LogEntry.latency_seconds).length : Rat))) ∧
      (∃ m, List.lookup "min_latency" (getStatistics wLogs) = some m ∧
        m ∈ (wLogs.filter fun e => e.success).map LogEntry.latency_seconds ∧
        ∀ x ∈ (wLogs.filter fun e => e.success).map LogEntry.latency_seconds, m ≤ x) ∧
      (∃ M, List.lookup "max_latency" (getStatistics wLogs) = some M ∧
        M ∈ (wLogs.filter fun e => e.success).map LogEntry.latency_seconds ∧
        ∀ x ∈ (wLogs.filter fun e => e.success).map LogEntry.latency_seconds, x ≤ M)) :=
  statistics_spec wLogs (by decide)

theorem loadIter_documents (files : DirListing) (n : Nat) :
    (loadIter files n).documents = (List.replicate n (dirDocs files)).flatten := by
  induction n with
  | zero => rfl
  | succ n ih =>
    show (loadDocuments (loadIter files n) (some files)).1.documents = _
    simp only [loadDocuments]
    rw [ih, List.replicate_succ']
    simp

theorem count_flatten_replicate (n : Nat) (l : List Document) (d : Document) :
    ((List.replicate n l).flatten).count d = n * l.count d := by
  induction n with
  | zero => simp
  | succ n ih =>
    rw [List.replicate_succ, List.flatten_cons, List.count_append, ih, Nat.succ_mul]
    omega

theorem chunkMap_flatten_replicate (n size : Nat) (l : List Document) :
    ((List.replicate n l).flatten.map (chunkDocument size)).flatten
      = (List.replicate n ((l.map (chunkDocument size)).flatten)).flatten := by
  induction n with
  | zero => simp
  | succ n ih =>
    rw [List.replicate_succ, List.flatten_cons, List.map_append, List.flatten_append, ih,
        List.replicate_succ, List.flatten_cons]

/-- C10: load_documents is not idempotent. It appends into the loader's
persistent documents list without clearing it, so the (n+1)-st call on the
same directory returns n+1 concatenated copies of the directory's document
list, every document of the directory occurs n+1 times in it, and
chunk_documents afterwards emits the chunks of each copy. -/
theorem load_documents_not_idempotent (files : DirListing) (n size : Nat) :
    (loadDocuments (loadIter files n) (some files)).2
      = (List.replicate (n + 1) (dirDocs files)).flatten ∧
    (∀ d : Document, ((loadDocuments (loadIter files n) (some files)).2).count d
      = (n + 1) * (dirDocs files).count d) ∧
    chunkDocuments (loadIter files (n + 1)) size
      = (List.replicate (n + 1)
          (chunkDocuments { documents := dirDocs files } size)).flatten := by
  have h2 : (loadDocuments (loadIter files n) (some files)).2
      = (List.replicate (n + 1) (dirDocs files)).flatten := by
    simp only [loadDocuments]
    rw [loadIter_documents, List.replicate_succ']
    simp
  refine ⟨h2, fun d => by rw [h2, count_flatten_replicate], ?_⟩
  show ((loadIter files (n + 1)).documents.map (chunkDocument size)).flatten = _
  rw [loadIter_documents]
  exact chunkMap_flatten_replicate (n + 1) size (dirDocs files)
